import Mathlib

/-!
Shallow embedding of `src/vec2dic.cpp` (SentiLex).

The embedding models the two loaders (`read_vectors`, `read_seed_set`), the two
normalization passes (`_length_normalize`, `_mean_normalize`), the merge/output
stage (`output_terms`) and the seed-projection fragment of `main`.

Conventions:
- `std::string` contents are modelled as `List Char`; byte-wise `strcmp` order on
  valid UTF-8 agrees with the code-point order used here, because UTF-8 encoding
  is monotone in the code point.
- `size_t` values are modelled as `Nat` reduced mod `2^64` where the C++ code can
  wrap around (`std::string::npos` arithmetic).
- `std::string::operator[]` is defined for indices `≤ size()` (index `= size()`
  yields the terminating `'\0'`); any access at an index `> size()` is undefined
  behaviour in the C++ and is modelled by a dedicated `oob`/`ub` outcome.
- `std::unordered_map::emplace` inserts only when the key is absent; it never
  overwrites.  Maps are modelled as association lists with exactly that insert.
- Floating-point matrix arithmetic is idealized as exact real arithmetic, which
  is the reading the specification itself takes ("in exact arithmetic",
  "within floating-point tolerance").
-/

namespace Vec2Dic

/-- Polarity of a term.  Modelled from the spec: the enum `Polarity` is declared
in `expansion.h`, which is not part of the sources; the spec fixes the label set
as exactly `{Positive, Negative, Neutral}` and `vec2dic.cpp` uses exactly the
three enumerators `POSITIVE`, `NEGATIVE`, `NEUTRAL`. -/
inductive Polarity
  | POSITIVE
  | NEGATIVE
  | NEUTRAL
deriving DecidableEq

/-- The value of `std::string::npos` for a 64-bit `size_t`. -/
def NPOS : Nat := 2 ^ 64 - 1

/-- C `isspace` in the default locale: space, tab, newline, vertical tab,
form feed, carriage return. -/
def cIsSpace (c : Char) : Bool :=
  c == ' ' || c == '\t' || c == '\n' || c == Char.ofNat 11 || c == Char.ofNat 12 || c == '\r'

/-- C `tolower` in the default locale (ASCII). -/
def cToLower (c : Char) : Char :=
  if 'A' ≤ c ∧ c ≤ 'Z' then Char.ofNat (c.toNat + 32) else c

/-- Result of a C++ `std::string` subscript `s[i]`: a character for `i < size()`,
the terminating `'\0'` for `i = size()`, and out-of-bounds (undefined behaviour)
for `i > size()`. -/
inductive CAcc
  | chr (c : Char)
  | nul
  | oob
deriving DecidableEq

/-- Model of `s[i]` on a `std::string` with contents `s`. -/
def cAt (s : List Char) (i : Nat) : CAcc :=
  if h : i < s.length then .chr s[i]
  else if i = s.length then .nul
  else .oob

/-- Whether the C++ test `std::isspace(s[i])` holds at an in-range position
(the callers below only use it where the access is defined). -/
def spaceAt (s : List Char) (i : Nat) : Bool :=
  match cAt s i with
  | .chr c => cIsSpace c
  | _ => false

/-- The `ltrim` helper of `vec2dic.cpp`: drop leading blanks. -/
def ltrim (s : List Char) : List Char := s.dropWhile cIsSpace

/-- The `rtrim` helper of `vec2dic.cpp`: drop trailing blanks. -/
def rtrim (s : List Char) : List Char := (s.reverse.dropWhile cIsSpace).reverse

/-- The `normalize` helper of `vec2dic.cpp`: trim both ends, then lower-case. -/
def normalize (s : List Char) : List Char := (ltrim (rtrim s)).map cToLower

/-- Forward scan used by the loop `while (s[++pos] && isspace(s[pos])) {}` once
the first increment has been taken: advance while the character at `pos` exists
and is blank (reading the `'\0'` at `pos = length` stops the loop).  The loop is
rendered in closed form: the final position is the start plus the length of the
blank run there. -/
def fwdFrom (s : List Char) (pos : Nat) : Nat :=
  pos + ((s.drop pos).takeWhile cIsSpace).length

/-- The backward scan `while (pos > 0 && isspace(s[pos])) --pos;` used at lines
316 and 415.  Returns `none` when the subscript is out of bounds (which is
undefined behaviour in the C++, reachable when `pos = npos`). -/
def bwdScan (s : List Char) : Nat → Option Nat
  | 0 => some 0
  | pos + 1 =>
    match cAt s (pos + 1) with
    | .oob => none
    | .nul => some (pos + 1)
    | .chr c => if cIsSpace c then bwdScan s pos else some (pos + 1)

/-- Outcome of processing one line of the seed file. -/
inductive SeedLine
  | skip
  | entry (w : List Char) (p : Polarity)
  | err
  | ub
deriving DecidableEq

/-- Prefix comparison `iline.compare(pos, t.length(), t) == 0` of
`read_seed_set`: the substring of `s` starting at `pos`, clamped to
`t.length` characters, equals `t`. -/
def prefixAt (s : List Char) (pos : Nat) (t : List Char) : Bool :=
  ((s.drop pos).take t.length) == t

/-- Polarity-class determination of `read_seed_set` (lines 404-413): match
`positive`, then `negative`, then `neutral` as literal prefixes at `pos`. -/
def polMatch (s : List Char) (pos : Nat) : Option Polarity :=
  if prefixAt s pos "positive".toList then some .POSITIVE
  else if prefixAt s pos "negative".toList then some .NEGATIVE
  else if prefixAt s pos "neutral".toList then some .NEUTRAL
  else none

/-- One iteration of the `read_seed_set` line loop (lines 388-422): skip raw
empty lines; trim and lower-case; locate the first tab; skip blanks after it;
check for a missing polarity; match the polarity class; scan backwards for the
end of the word; extract the word.  A line without a tab leaves `tab_pos_orig`
at `npos`, so the backward scan starts with the out-of-bounds access
`iline[npos]` whenever the polarity match succeeded first. -/
def parseSeedLine (raw : String) : SeedLine :=
  if raw.toList = [] then .skip
  else
    let s := normalize raw.toList
    let tabPos := (s.findIdx? (fun c => c == '\t')).getD NPOS
    let tp := fwdFrom s ((tabPos + 1) % 2 ^ 64)
    if tp = NPOS ∨ cAt s tp = .nul then .err
    else
      match polMatch s tp with
      | none => .err
      | some pol =>
        match bwdScan s tabPos with
        | none => .ub
        | some tpo =>
          if tpo = 0 ∧ spaceAt s tpo then .err
          else .entry (s.take ((tpo + 1) % 2 ^ 64)) pol

/-- Overall outcome of a loader: the C++ return value `0` (`ok`) or `1` (`err`),
or undefined behaviour reached (`ub`). -/
inductive LoadOutcome
  | ok
  | err
  | ub
deriving DecidableEq

/-- Insertion into an association list with the semantics of
`std::unordered_map::emplace`: insert only when the key is absent, never
overwrite. -/
def emplace {α β : Type} [DecidableEq α] (m : List (α × β)) (k : α) (v : β) :
    List (α × β) :=
  if (m.find? (fun e => e.1 == k)).isSome then m else m ++ [(k, v)]

/-- Lookup in an association list (`std::unordered_map::find`). -/
def lookupKey {α β : Type} [DecidableEq α] (m : List (α × β)) (k : α) : Option β :=
  (m.find? (fun e => e.1 == k)).map (fun e => e.2)

/-- The word-to-polarity map `word2pol`. -/
abbrev W2P := List (List Char × Polarity)

/-- The line loop of `read_seed_set`, carrying the `word2pol` map being built.
Any `goto error_exit` clears the map (`word2pol.clear()`, line 434) and returns
`1`. -/
def read_seed_set_go (lines : List String) (m : W2P) : LoadOutcome × W2P :=
  match lines with
  | [] => (.ok, m)
  | l :: ls =>
    match parseSeedLine l with
    | .skip => read_seed_set_go ls m
    | .entry w p => read_seed_set_go ls (emplace m w p)
    | .err => (.err, [])
    | .ub => (.ub, [])

/-- `read_seed_set` (lines 374-436) on the list of lines of the seed file.
Opening the file and mid-stream I/O failures are not modelled: the file is its
line list. -/
def read_seed_set (lines : List String) : LoadOutcome × W2P :=
  read_seed_set_go lines []

/-- Polarity of the first line of the seed file whose parsed word is `w`. -/
def firstSeedPol (lines : List String) (w : List Char) : Option Polarity :=
  match lines with
  | [] => none
  | l :: ls =>
    match parseSeedLine l with
    | .entry w' p => if w' = w then some p else firstSeedPol ls w
    | _ => firstSeedPol ls w

/-- State built by `read_vectors`: the two vocabulary maps `word2vecid` and
`vecid2word`, the declared shape of the matrix `NWE` (`set_size(mrows,
ncolumns)`), and the matrix cells actually written, as `(row, column) ↦ raw
token`.  Cells never written (possible, see the truncation theorems below)
hold uninitialized memory in the C++ and are simply absent here. -/
structure VecState where
  w2v : List (List Char × Nat)
  v2w : List (Nat × List Char)
  rows : Nat
  cols : Nat
  vals : List ((Nat × Nat) × List Char)
deriving DecidableEq

/-- The cleared global state after `error_exit` of `read_vectors` (lines
359-364): `word2vecid.clear()`, `vecid2word.clear()`, `NWE.reset()`. -/
def emptyVecState : VecState := ⟨[], [], 0, 0, []⟩

/-- One `%u` conversion of `sscanf`: skip blanks, read a decimal digit run.
The optional sign accepted by `strtoul` is not modelled (no claim involves
signed headers), nor is 32-bit wrap-around of the stored value. -/
def parseUInt (s : List Char) : Option (Nat × List Char) :=
  let s1 := s.dropWhile cIsSpace
  let ds := s1.takeWhile Char.isDigit
  if ds.length = 0 then none
  else some (ds.foldl (fun a c => a * 10 + (c.toNat - 48)) 0, s1.drop ds.length)

/-- The declaration-line parse `sscanf(iline, "%u %u", &ncolumns, &mrows)` of
`read_vectors` (line 305): both integers must parse; trailing content is
ignored.  Returns `(ncolumns, mrows)`. -/
def parseHeader (s : List Char) : Option (Nat × Nat) :=
  match parseUInt s with
  | none => none
  | some pr =>
    match parseUInt pr.2 with
    | none => none
    | some pr2 => some (pr.1, pr2.1)

/-- One `" %f%n"` conversion of `sscanf` (line 326), `strtof` style: skip
blanks, then an optional sign, a decimal mantissa with at least one digit, and
an exponent part that is consumed only when complete.  Returns the consumed
token and the rest.  The hexadecimal, infinity and NaN forms of `strtof` are
not modelled (no claim involves them). -/
def scanFloat1 (s : List Char) : Option (List Char × List Char) :=
  let s1 := s.dropWhile cIsSpace
  let sgn : List Char × List Char :=
    match s1 with
    | c :: rest => if c == '+' || c == '-' then ([c], rest) else ([], s1)
    | [] => ([], [])
  let ip := sgn.2.takeWhile Char.isDigit
  let s3 := sgn.2.drop ip.length
  let fp : List Char × List Char :=
    match s3 with
    | '.' :: rest =>
      let f := rest.takeWhile Char.isDigit
      ('.' :: f, rest.drop f.length)
    | _ => ([], s3)
  if ip.length = 0 ∧ fp.1.length ≤ 1 then none
  else
    let ex : List Char × List Char :=
      match fp.2 with
      | c :: rest =>
        if c == 'e' || c == 'E' then
          let es : List Char × List Char :=
            match rest with
            | d :: r2 => if d == '+' || d == '-' then ([d], r2) else ([], rest)
            | [] => ([], [])
          let eds := es.2.takeWhile Char.isDigit
          if eds.length = 0 then ([], fp.2)
          else (c :: (es.1 ++ eds), es.2.drop eds.length)
        else ([], fp.2)
      | [] => ([], fp.2)
    some (sgn.1 ++ ip ++ fp.1 ++ ex.1, ex.2)

/-- The inner loop `for (irow = 0; irow < mrows && sscanf(...) == 1; ++irow)`
of `read_vectors`: read up to `mrows` float tokens, stopping at the first
failed conversion. -/
def scanFloats : Nat → List Char → List (List Char)
  | 0, _ => []
  | n + 1, s =>
    match scanFloat1 s with
    | none => []
    | some pr => pr.1 :: scanFloats n pr.2

/-- Outcome of processing one data line of the vector file. -/
inductive VecLine
  | entry (w : List Char) (toks : List (List Char))
  | wordErr
  | rowErr
  | oob
deriving DecidableEq

/-- One iteration of the `read_vectors` data-line loop (lines 314-336): find
the first space; scan backwards over blanks for the end of the word (a line
without a space leaves `space_pos` at `npos` and the scan starts with the
out-of-bounds access `iline[npos]`); check for a missing word; extract the
word; read up to `mrows` float tokens from the rest and require exactly
`mrows`.  The C++ emplaces the word before reading the floats, but a row-count
failure jumps to `error_exit`, which clears all maps, so parsing the whole
line first is observationally the same. -/
def parseVecLine (mrows : Nat) (raw : String) : VecLine :=
  let s := raw.toList
  let spacePos := (s.findIdx? (fun c => c == ' ')).getD NPOS
  match bwdScan s spacePos with
  | none => .oob
  | some sp =>
    if sp = 0 ∧ spaceAt s sp then .wordErr
    else
      let sp1 := (sp + 1) % 2 ^ 64
      let toks := scanFloats mrows (s.drop sp1)
      if toks.length ≠ mrows then .rowErr
      else .entry (s.take sp1) toks

/-- The data-line loop of `read_vectors` (lines 314-346) followed by the final
checks: the loop runs while `icol < ncolumns` and lines remain; when it stops,
the I/O-failure test is skipped (the stream model cannot fail mid-read) and
only `irow != mrows` is tested, where `irow` is the row count of the last
processed line (initially `0`).  Every `goto error_exit` returns the cleared
state. -/
def read_vectors_go (mrows ncols : Nat) :
    List String → Nat → Nat → VecState → LoadOutcome × VecState
  | lines, icol, lastIrow, st =>
    if icol < ncols then
      match lines with
      | [] =>
        if lastIrow ≠ mrows then (.err, emptyVecState) else (.ok, st)
      | l :: ls =>
        match parseVecLine mrows l with
        | .oob => (.ub, emptyVecState)
        | .wordErr => (.err, emptyVecState)
        | .rowErr => (.err, emptyVecState)
        | .entry w toks =>
          read_vectors_go mrows ncols ls (icol + 1) mrows
            { st with
              w2v := emplace st.w2v w icol
              v2w := emplace st.v2w icol w
              vals := st.vals ++ toks.enum.map (fun e => ((e.1, icol), e.2)) }
    else
      if lastIrow ≠ mrows then (.err, emptyVecState) else (.ok, st)

/-- `read_vectors` (lines 287-365) on the list of lines of the vector file:
skip leading empty lines, parse the header of the first non-blank line as
`(ncolumns, mrows)`, size the matrix, then run the data-line loop.  Opening
the file and mid-stream I/O failures are not modelled.  The trailing
normalization calls (lines 348-354) mutate only matrix values and are modelled
separately on real matrices (`length_normalize`, `mean_normalize`); the state
here keeps the raw tokens. -/
def read_vectors (lines : List String) : LoadOutcome × VecState :=
  let rest := lines.dropWhile (fun l => l.toList == [])
  let header := (rest.head?).getD ""
  match parseHeader header.toList with
  | none => (.err, emptyVecState)
  | some pr =>
    read_vectors_go pr.2 pr.1 (rest.drop 1) 0 0
      { w2v := [], v2w := [], rows := pr.2, cols := pr.1, vals := [] }

/-- The map `vecid2word`. -/
abbrev V2W := List (Nat × List Char)

/-- The map `vecid2pol`. -/
abbrev V2P := List (Nat × Polarity)

/-- The merge loop of `output_terms` (lines 160-164): resolve every id of the
labeling through `vecid2word` and `emplace` the word into `word2pol`.  The
comment in the source says "we assume that the word is always found"; when an
id does not resolve the C++ dereferences `vecid2word.end()`, which is
undefined behaviour, modelled by `none`. -/
def mergeLabeling (v2w : V2W) (m : W2P) (v2p : V2P) : Option W2P :=
  match v2p with
  | [] => some m
  | e :: rest =>
    match lookupKey v2w e.1 with
    | some w => mergeLabeling v2w (emplace m w e.2) rest
    | none => none

/-- The polarity names written by the output switch of `output_terms`
(lines 179-191). -/
def polName : Polarity → List Char
  | .POSITIVE => "positive".toList
  | .NEGATIVE => "negative".toList
  | .NEUTRAL => "neutral".toList

/-- The sort of `output_terms` (line 173): `std::sort` under the comparator
`strcmp(w1, w2) < 0`.  On the unique keys of a map the sorted permutation is
unique, so a merge sort under the corresponding total order is an exact model;
byte-wise `strcmp` order on UTF-8 agrees with the code-point order of
`List Char`. -/
def sortWords (m : W2P) : W2P :=
  m.mergeSort (fun a b => decide (a.1 ≤ b.1))

/-- The output loop of `output_terms` (lines 177-193): for each pair, the
word, a tab, the polarity name, and a newline (`std::endl`). -/
def renderOutput (l : W2P) : List Char :=
  l.foldl (fun acc e => acc ++ e.1 ++ ['\t'] ++ polName e.2 ++ ['\n']) []

/-- `output_terms` (lines 154-194): merge the id-keyed labeling into
`word2pol`, sort, and render.  Returns the sorted pair list and the emitted
characters, or `none` on an unresolvable id. -/
def output_terms (w2p : W2P) (v2w : V2W) (v2p : V2P) : Option (W2P × List Char) :=
  match mergeLabeling v2w w2p v2p with
  | none => none
  | some m => some (sortWords m, renderOutput (sortWords m))

/-- The loop of the seed-projection fragment of `main` (lines 468-472): for
each seed entry, look its word up in `word2vecid` and, when found, `emplace`
the id with the seed polarity into the accumulating `vecid2pol`. -/
def seedToVecPol_go (w2v : List (List Char × Nat)) : W2P → V2P → V2P
  | [], acc => acc
  | e :: rest, acc =>
    match lookupKey w2v e.1 with
    | some vid => seedToVecPol_go w2v rest (emplace acc vid e.2)
    | none => seedToVecPol_go w2v rest acc

/-- The seed-projection fragment of `main` (lines 466-472): build `vecid2pol`
from every seed word found in `word2vecid`; seed words absent from the
vocabulary contribute nothing. -/
def seedToVecPol (w2p : W2P) (w2v : List (List Char × Nat)) : V2P :=
  seedToVecPol_go w2v w2p []

/-- The column norm computed by `_length_normalize` (lines 247-254): the
square root of the sum of squared column entries.  Matrix arithmetic is
idealized as exact real arithmetic. -/
noncomputable def colNorm {m n : Nat} (A : Matrix (Fin m) (Fin n) ℝ) (i : Fin n) : ℝ :=
  Real.sqrt (∑ j, A j i * A j i)

/-- `_length_normalize` (lines 243-259): divide each column by its norm when
the norm is nonzero (`if (ilength)`), leave zero-norm columns unchanged. -/
noncomputable def length_normalize {m n : Nat} (A : Matrix (Fin m) (Fin n) ℝ) :
    Matrix (Fin m) (Fin n) ℝ :=
  fun j i => if colNorm A i = 0 then A j i else A j i / colNorm A i

/-- `_mean_normalize` (lines 269-276): subtract from each row its mean across
all columns (`arma::mean(*a_nwe, 1)`). -/
noncomputable def mean_normalize {m n : Nat} (A : Matrix (Fin m) (Fin n) ℝ) :
    Matrix (Fin m) (Fin n) ℝ :=
  fun j i => A j i - (∑ k, A j k) / n

section MapLemmas

variable {α β : Type} [DecidableEq α]

theorem lookupKey_nil (w : α) : lookupKey ([] : List (α × β)) w = none := rfl

theorem lookupKey_append (m₁ m₂ : List (α × β)) (w : α) :
    lookupKey (m₁ ++ m₂) w = (lookupKey m₁ w).or (lookupKey m₂ w) := by
  unfold lookupKey
  rw [List.find?_append]
  cases List.find? (fun e => e.1 == w) m₁ <;> simp [Option.or]

theorem lookupKey_singleton (k w : α) (v : β) :
    lookupKey [(k, v)] w = if w = k then some v else none := by
  unfold lookupKey
  by_cases h : w = k
  · subst h
    rw [List.find?_cons_of_pos _ (by simp)]
    simp
  · rw [List.find?_cons_of_neg _ (by simpa using fun h' => h h'.symm)]
    simp [h]

theorem isSome_lookupKey (m : List (α × β)) (k : α) :
    (lookupKey m k).isSome = (m.find? (fun e => e.1 == k)).isSome := by
  unfold lookupKey
  cases m.find? (fun e => e.1 == k) <;> rfl

/-- The fundamental description of `emplace`: looking up `w` after
`emplace m k v` finds the old binding of `w` if any, and otherwise `v` exactly
when `w = k`. -/
theorem lookupKey_emplace (m : List (α × β)) (k w : α) (v : β) :
    lookupKey (emplace m k v) w
      = (lookupKey m w).or (if w = k then some v else none) := by
  unfold emplace
  by_cases hk : (m.find? (fun e => e.1 == k)).isSome
  · rw [if_pos hk]
    by_cases hw : w = k
    · subst hw
      rw [← isSome_lookupKey] at hk
      rcases Option.isSome_iff_exists.mp hk with ⟨v', hv'⟩
      rw [hv']
      rfl
    · rw [if_neg hw, Option.or_none]
  · rw [if_neg hk, lookupKey_append, lookupKey_singleton]

/-- An existing binding survives `emplace`. -/
theorem lookupKey_emplace_of_some {m : List (α × β)} {w : α} {p : β} (k : α) (v : β)
    (h : lookupKey m w = some p) : lookupKey (emplace m k v) w = some p := by
  rw [lookupKey_emplace, h]
  rfl

/-- After `emplace m k v` the key `k` is bound. -/
theorem isSome_lookupKey_emplace (m : List (α × β)) (k : α) (v : β) :
    (lookupKey (emplace m k v) k).isSome := by
  rw [lookupKey_emplace, if_pos rfl]
  cases lookupKey m k <;> rfl

/-- A bound key stays bound after `emplace`. -/
theorem isSome_lookupKey_emplace_of_isSome {m : List (α × β)} {w : α} (k : α) (v : β)
    (h : (lookupKey m w).isSome) : (lookupKey (emplace m k v) w).isSome := by
  rw [lookupKey_emplace]
  rcases Option.isSome_iff_exists.mp h with ⟨p, hp⟩
  rw [hp]
  rfl

/-- On an already-bound key, `emplace` is the identity. -/
theorem emplace_of_isSome {m : List (α × β)} {k : α} (v : β)
    (h : (lookupKey m k).isSome) : emplace m k v = m := by
  unfold emplace
  rw [isSome_lookupKey] at h
  rw [if_pos h]

/-- Lookup on a cons cell. -/
theorem lookupKey_cons (k : α) (v : β) (m : List (α × β)) (w : α) :
    lookupKey ((k, v) :: m) w = if w = k then some v else lookupKey m w := by
  unfold lookupKey
  by_cases h : w = k
  · subst h
    rw [List.find?_cons_of_pos _ (by simp)]
    simp
  · rw [List.find?_cons_of_neg _ (by simpa using fun h' => h h'.symm)]
    simp [h]

/-- A key bound to nothing is absent. -/
theorem lookupKey_eq_none {m : List (α × β)} {k : α}
    (h : ∀ k' ∈ m.map Prod.fst, k' ≠ k) : lookupKey m k = none := by
  unfold lookupKey
  have hf : m.find? (fun e => e.1 == k) = none :=
    List.find?_eq_none.mpr
      (fun e he hb => h e.1 (List.mem_map_of_mem Prod.fst he) (beq_iff_eq.mp hb))
  rw [hf]
  rfl

/-- On an absent key, `emplace` appends. -/
theorem emplace_of_lookup_none {m : List (α × β)} {k : α} (v : β)
    (h : lookupKey m k = none) : emplace m k v = m ++ [(k, v)] := by
  unfold emplace
  unfold lookupKey at h
  cases hf : m.find? (fun e => e.1 == k) with
  | none => rfl
  | some e => rw [hf] at h; simp at h

/-- A successful lookup exhibits a member of the list. -/
theorem mem_of_lookupKey_some {m : List (α × β)} {k : α} {v : β}
    (h : lookupKey m k = some v) : (k, v) ∈ m := by
  unfold lookupKey at h
  cases hf : m.find? (fun e => e.1 == k) with
  | none => rw [hf] at h; cases h
  | some e =>
    rw [hf] at h
    have h1 := List.find?_some hf
    have hk : e.1 = k := beq_iff_eq.mp h1
    have hv : e.2 = v := Option.some.inj h
    have he : e = (k, v) := Prod.ext hk hv
    rw [← he]
    exact List.mem_of_find?_eq_some hf

end MapLemmas

/-- Accumulator-generalized form of first-write-wins for the seed loader: on a
successful run the final binding of `w` is its binding in the accumulator if
any, and otherwise the polarity of the first line parsing to `w`. -/
theorem read_seed_set_go_lookup (lines : List String) :
    ∀ m m', read_seed_set_go lines m = (.ok, m') →
      ∀ w, lookupKey m' w = (lookupKey m w).or (firstSeedPol lines w) := by
  induction lines with
  | nil =>
    intro m m' h w
    unfold read_seed_set_go at h
    cases h
    simp [firstSeedPol, Option.or_none]
  | cons l ls ih =>
    intro m m' h w
    unfold read_seed_set_go at h
    cases hl : parseSeedLine l with
    | skip =>
      rw [hl] at h
      have hfp : firstSeedPol (l :: ls) w = firstSeedPol ls w := by
        simp [firstSeedPol, hl]
      rw [hfp, ih m m' h w]
    | entry w' p =>
      rw [hl] at h
      have hfp : firstSeedPol (l :: ls) w
          = if w' = w then some p else firstSeedPol ls w := by
        simp [firstSeedPol, hl]
      rw [hfp, ih _ m' h w, lookupKey_emplace, Option.or_assoc]
      by_cases hw : w' = w
      · rw [if_pos hw, if_pos hw.symm]
        rfl
      · rw [if_neg hw, if_neg (fun hww => hw hww.symm), Option.none_or]
    | err => rw [hl] at h; simp at h
    | ub => rw [hl] at h; simp at h

/-- On a run of the seed-loader loop that returns `1` (`err`), the returned
`word2pol` map is empty (`word2pol.clear()` at `error_exit`). -/
theorem read_seed_set_go_err (lines : List String) :
    ∀ m, (read_seed_set_go lines m).1 = .err → (read_seed_set_go lines m).2 = [] := by
  induction lines with
  | nil =>
    intro m h
    simp [read_seed_set_go] at h
  | cons l ls ih =>
    intro m h
    cases hl : parseSeedLine l with
    | skip =>
      simp only [read_seed_set_go, hl] at h ⊢
      exact ih m h
    | entry w p =>
      simp only [read_seed_set_go, hl] at h ⊢
      exact ih _ h
    | err => simp [read_seed_set_go, hl]
    | ub => simp [read_seed_set_go, hl] at h

/-- On a run of the vector-loader loop that returns `1` (`err`), the returned
state is the cleared one (`error_exit`, lines 359-364). -/
theorem read_vectors_go_err (mrows ncols : Nat) :
    ∀ (lines : List String) (icol lastIrow : Nat) (st : VecState),
      (read_vectors_go mrows ncols lines icol lastIrow st).1 = .err →
      (read_vectors_go mrows ncols lines icol lastIrow st).2 = emptyVecState := by
  intro lines
  induction lines with
  | nil =>
    intro icol lastIrow st h
    simp only [read_vectors_go] at h ⊢
    by_cases hc : icol < ncols <;>
      simp only [if_pos, if_neg, hc, if_true, if_false] at h ⊢ <;>
      by_cases hr : lastIrow ≠ mrows <;>
      simp_all
  | cons l ls ih =>
    intro icol lastIrow st h
    simp only [read_vectors_go] at h ⊢
    by_cases hc : icol < ncols
    · simp only [hc, if_true] at h ⊢
      cases hv : parseVecLine mrows l with
      | entry w toks =>
        simp only [hv] at h ⊢
        exact ih _ _ _ h
      | wordErr => simp [hv]
      | rowErr => simp [hv]
      | oob => simp [hv] at h
    · simp only [hc, if_false] at h ⊢
      by_cases hr : lastIrow ≠ mrows <;> simp_all

/-- Claim C1, counterexample: the claim says "the later occurrence overwrites
the earlier one", but on the seed file `a<TAB>positive`, `a<TAB>negative` the
loader succeeds with `a` bound to the polarity of its FIRST line — `emplace`
never overwrites — not the polarity `negative` of its last-read line. -/
theorem seed_last_write_counterexample :
    (read_seed_set ["a\tpositive", "a\tnegative"]).1 = .ok
    ∧ lookupKey (read_seed_set ["a\tpositive", "a\tnegative"]).2 "a".toList
        = some .POSITIVE
    ∧ lookupKey (read_seed_set ["a\tpositive", "a\tnegative"]).2 "a".toList
        ≠ some .NEGATIVE := by
  refine ⟨by decide, by decide, by decide⟩

/-- Claim C1, amended: for every seed file, on success the resulting
word-to-polarity mapping assigns each duplicated word the polarity of its
FIRST-read line; later occurrences are ignored (`std::unordered_map::emplace`
inserts only when the key is absent). -/
theorem seed_first_write_wins (lines : List String) (m : W2P)
    (h : read_seed_set lines = (.ok, m)) (w : List Char) :
    lookupKey m w = firstSeedPol lines w := by
  have := read_seed_set_go_lookup lines [] m h w
  rwa [lookupKey_nil, Option.none_or] at this

/-- Claim C1, witness for the amended theorem at a concrete seed file. -/
theorem seed_first_write_wins_witness :
    read_seed_set ["x\tpositive", "x\tneutral"] = (.ok, [("x".toList, .POSITIVE)])
    ∧ lookupKey [("x".toList, Polarity.POSITIVE)] "x".toList
        = firstSeedPol ["x\tpositive", "x\tneutral"] "x".toList :=
  ⟨by decide,
   seed_first_write_wins ["x\tpositive", "x\tneutral"] _ (by decide) "x".toList⟩

/-- Claim C2: a non-blank seed line without a tab is NOT always reported as a
format error.  When the trimmed lower-cased line does not start with a polarity
name the loader does fail (`hello`), but when it does start with one
(`positive`), the missing-tab check is dead — `tab_pos == npos` is tested only
after `++tab_pos` has wrapped `npos` to `0` — and the code reaches the
out-of-bounds access `iline[npos]` in the backward word scan: undefined
behaviour instead of a format error. -/
theorem seed_no_tab_out_of_bounds :
    read_seed_set ["positive"] = (.ub, [])
    ∧ read_seed_set ["hello"] = (.err, []) := by
  refine ⟨by decide, by decide⟩

/-- Claim C3: a vector file whose header declares 2 columns but which provides
only 1 complete data line is ACCEPTED — the final check tests only the row
count of the last line (`irow != mrows`, line 342), not the column count — and
the resulting vocabulary has 1 entry against a declared column count of 2
(the second matrix column is never written). -/
theorem vec_truncated_file_accepted :
    (read_vectors ["2 1", "w 1.0"]).1 = .ok
    ∧ (read_vectors ["2 1", "w 1.0"]).2.w2v.length = 1
    ∧ (read_vectors ["2 1", "w 1.0"]).2.cols = 2
    ∧ (read_vectors ["2 1", "w 1.0"]).2.vals.length = 1 := by
  refine ⟨by decide, by decide, by decide, by decide⟩

/-- Claim C5: each loader is atomic on error — whenever `read_vectors` returns
failure its vocabulary maps and matrix state are the cleared `emptyVecState`,
and whenever `read_seed_set` returns failure its word-to-polarity map is
empty. -/
theorem loaders_clear_state_on_error (vlines slines : List String) :
    ((read_vectors vlines).1 = .err → (read_vectors vlines).2 = emptyVecState)
    ∧ ((read_seed_set slines).1 = .err → (read_seed_set slines).2 = []) := by
  constructor
  · intro h
    unfold read_vectors at h ⊢
    cases hh : parseHeader (((vlines.dropWhile
        (fun l => l.toList == [])).head?.getD "").toList) with
    | none => simp only [hh]
    | some pr =>
      simp only [hh] at h ⊢
      exact read_vectors_go_err _ _ _ _ _ _ h
  · exact read_seed_set_go_err slines []

/-- Claim C5, witness: a malformed header and a malformed seed line both make
their loader fail with cleared state. -/
theorem loaders_clear_state_on_error_witness :
    ((read_vectors ["abc def"]).1 = .err
      ∧ (read_vectors ["abc def"]).2 = emptyVecState)
    ∧ ((read_seed_set ["hello"]).1 = .err ∧ (read_seed_set ["hello"]).2 = []) :=
  ⟨⟨by decide, (loaders_clear_state_on_error ["abc def"] ["hello"]).1 (by decide)⟩,
   ⟨by decide, (loaders_clear_state_on_error ["abc def"] ["hello"]).2 (by decide)⟩⟩

/-- An existing binding of `word2pol` survives the merge loop of
`output_terms`. -/
theorem merge_preserves_lookup :
    ∀ (v2p : V2P) (v2w : V2W) (m0 m : W2P) (w : List Char) (p : Polarity),
      mergeLabeling v2w m0 v2p = some m → lookupKey m0 w = some p →
      lookupKey m w = some p := by
  intro v2p
  induction v2p with
  | nil =>
    intro v2w m0 m w p h hw
    unfold mergeLabeling at h
    cases h
    exact hw
  | cons e rest ih =>
    intro v2w m0 m w p h hw
    unfold mergeLabeling at h
    cases hv : lookupKey v2w e.1 with
    | none => rw [hv] at h; cases h
    | some w' =>
      rw [hv] at h
      exact ih v2w _ m w p h (lookupKey_emplace_of_some w' e.2 hw)

/-- A key bound in `word2pol` stays bound through the merge loop. -/
theorem merge_preserves_isSome :
    ∀ (v2p : V2P) (v2w : V2W) (m0 m : W2P) (w : List Char),
      mergeLabeling v2w m0 v2p = some m → (lookupKey m0 w).isSome →
      (lookupKey m w).isSome := by
  intro v2p
  induction v2p with
  | nil =>
    intro v2w m0 m w h hw
    unfold mergeLabeling at h
    cases h
    exact hw
  | cons e rest ih =>
    intro v2w m0 m w h hw
    unfold mergeLabeling at h
    cases hv : lookupKey v2w e.1 with
    | none => rw [hv] at h; cases h
    | some w' =>
      rw [hv] at h
      exact ih v2w _ m w h (isSome_lookupKey_emplace_of_isSome w' e.2 hw)

/-- After a successful merge, every id of the labeling resolves through
`vecid2word` and its word is bound in the resulting `word2pol`. -/
theorem merge_resolves :
    ∀ (v2p : V2P) (v2w : V2W) (m0 m : W2P),
      mergeLabeling v2w m0 v2p = some m →
      ∀ e ∈ v2p, ∃ w, lookupKey v2w e.1 = some w ∧ (lookupKey m w).isSome := by
  intro v2p
  induction v2p with
  | nil =>
    intro v2w m0 m _ e he
    exact absurd he (List.not_mem_nil e)
  | cons e rest ih =>
    intro v2w m0 m h f hf
    unfold mergeLabeling at h
    cases hv : lookupKey v2w e.1 with
    | none => rw [hv] at h; cases h
    | some w' =>
      rw [hv] at h
      rcases List.mem_cons.mp hf with hf1 | hf2
      · subst hf1
        exact ⟨w', hv,
          merge_preserves_isSome rest v2w _ m w' h
            (isSome_lookupKey_emplace m0 w' f.2)⟩
      · exact ih v2w _ m h f hf2

/-- When every id of the labeling resolves to a word already bound in the map,
the merge loop is the identity. -/
theorem merge_noop :
    ∀ (v2p : V2P) (v2w : V2W) (m : W2P),
      (∀ e ∈ v2p, ∃ w, lookupKey v2w e.1 = some w ∧ (lookupKey m w).isSome) →
      mergeLabeling v2w m v2p = some m := by
  intro v2p
  induction v2p with
  | nil => intro v2w m _; rfl
  | cons e rest ih =>
    intro v2w m hall
    obtain ⟨w, hvw, hsome⟩ := hall e (List.mem_cons_self e rest)
    show (match lookupKey v2w e.1 with
          | some w => mergeLabeling v2w (emplace m w e.2) rest
          | none => none) = some m
    rw [hvw]
    show mergeLabeling v2w (emplace m w e.2) rest = some m
    rw [emplace_of_isSome e.2 hsome]
    exact ih v2w m (fun f hf => hall f (List.mem_cons_of_mem e hf))

/-- Claim C8: merging the id-keyed labeling into the word-keyed index is
idempotent — merging the same labeling into the result again returns the
identical index — and existing seed entries are never altered, so every seed
word keeps its seed polarity in the final index. -/
theorem merge_idempotent_and_seed_preserved
    (v2w : V2W) (w2p : W2P) (v2p : V2P) (m : W2P)
    (h : mergeLabeling v2w w2p v2p = some m) :
    mergeLabeling v2w m v2p = some m
    ∧ ∀ w p, lookupKey w2p w = some p → lookupKey m w = some p :=
  ⟨merge_noop v2p v2w m (merge_resolves v2p v2w w2p m h),
   fun w p hp => merge_preserves_lookup v2p v2w w2p m w p h hp⟩

/-- Claim C8, witness: a concrete merge where the expansion relabels id 0, the
seed word keeps its polarity, and re-merging returns the same index. -/
theorem merge_idempotent_and_seed_preserved_witness :
    mergeLabeling [(0, "good".toList)] [("z".toList, Polarity.POSITIVE)]
        [(0, Polarity.NEGATIVE)]
      = some [("z".toList, Polarity.POSITIVE), ("good".toList, Polarity.NEGATIVE)]
    ∧ mergeLabeling [(0, "good".toList)]
        [("z".toList, Polarity.POSITIVE), ("good".toList, Polarity.NEGATIVE)]
        [(0, Polarity.NEGATIVE)]
      = some [("z".toList, Polarity.POSITIVE), ("good".toList, Polarity.NEGATIVE)]
    ∧ lookupKey [("z".toList, Polarity.POSITIVE), ("good".toList, Polarity.NEGATIVE)]
        "z".toList = some Polarity.POSITIVE := by
  have h := merge_idempotent_and_seed_preserved
    [(0, "good".toList)] [("z".toList, Polarity.POSITIVE)] [(0, Polarity.NEGATIVE)]
    [("z".toList, Polarity.POSITIVE), ("good".toList, Polarity.NEGATIVE)]
    (by decide)
  exact ⟨by decide, h.1, h.2 "z".toList Polarity.POSITIVE (by decide)⟩

/-- Seed entries whose word misses the vocabulary contribute nothing to the
projection loop of `main`, for any accumulator. -/
theorem seedToVecPol_go_filter (w2v : List (List Char × Nat)) (w : List Char)
    (hvocab : lookupKey w2v w = none) :
    ∀ (w2p : W2P) (acc : V2P),
      seedToVecPol_go w2v w2p acc
        = seedToVecPol_go w2v (w2p.filter (fun e => !(e.1 == w))) acc := by
  intro w2p
  induction w2p with
  | nil => intro acc; rfl
  | cons e rest ih =>
    intro acc
    by_cases hw : e.1 = w
    · have hfilter : (e :: rest).filter (fun e => !(e.1 == w))
          = rest.filter (fun e => !(e.1 == w)) := by
        simp [List.filter_cons, hw]
      have hstep : seedToVecPol_go w2v (e :: rest) acc
          = seedToVecPol_go w2v rest acc := by
        show (match lookupKey w2v e.1 with
              | some vid => seedToVecPol_go w2v rest (emplace acc vid e.2)
              | none => seedToVecPol_go w2v rest acc)
            = seedToVecPol_go w2v rest acc
        rw [hw, hvocab]
      rw [hfilter, hstep]
      exact ih acc
    · have hfilter : (e :: rest).filter (fun e => !(e.1 == w))
          = e :: rest.filter (fun e => !(e.1 == w)) := by
        simp [List.filter_cons, hw]
      rw [hfilter]
      cases hv : lookupKey w2v e.1 with
      | none =>
        have hstep : ∀ l, seedToVecPol_go w2v (e :: l) acc
            = seedToVecPol_go w2v l acc := by
          intro l
          show (match lookupKey w2v e.1 with
                | some vid => seedToVecPol_go w2v l (emplace acc vid e.2)
                | none => seedToVecPol_go w2v l acc)
              = seedToVecPol_go w2v l acc
          rw [hv]
        rw [hstep, hstep]
        exact ih acc
      | some vid =>
        have hstep : ∀ l, seedToVecPol_go w2v (e :: l) acc
            = seedToVecPol_go w2v l (emplace acc vid e.2) := by
          intro l
          show (match lookupKey w2v e.1 with
                | some vid => seedToVecPol_go w2v l (emplace acc vid e.2)
                | none => seedToVecPol_go w2v l acc)
              = seedToVecPol_go w2v l (emplace acc vid e.2)
          rw [hv]
        rw [hstep, hstep]
        exact ih _

/-- Claim C10: a seed word `w` absent from the embedding vocabulary is dropped
from the id-keyed labeling handed to the expansion strategy (the projection is
unchanged when all lines for `w` are removed from the seed map), yet whatever
labeling the expansion returns, after the merge the final index still binds
`w` to its seed polarity and the sorted output contains `(w, seed polarity)` —
so the output can contain words that have no embedding vector. -/
theorem missing_vocab_seed_word_retained
    (w2p : W2P) (w2v : List (List Char × Nat)) (v2w : V2W) (v2p : V2P)
    (w : List Char) (p : Polarity) (m : W2P)
    (hvocab : lookupKey w2v w = none) (hseed : lookupKey w2p w = some p)
    (hmerge : mergeLabeling v2w w2p v2p = some m) :
    seedToVecPol w2p w2v
        = seedToVecPol (w2p.filter (fun e => !(e.1 == w))) w2v
    ∧ lookupKey m w = some p
    ∧ (w, p) ∈ sortWords m := by
  have hlook : lookupKey m w = some p :=
    merge_preserves_lookup v2p v2w w2p m w p hmerge hseed
  refine ⟨seedToVecPol_go_filter w2v w hvocab w2p [], hlook, ?_⟩
  have hm : (w, p) ∈ m := mem_of_lookupKey_some hlook
  exact (List.mergeSort_perm m (fun a b => decide (a.1 ≤ b.1))).mem_iff.mpr hm

/-- Claim C10, witness: the seed word `z` is not in the vocabulary
`{good ↦ 0}`; with an expansion labeling that labels id 0, `z` still ends up
in the sorted output with its seed polarity. -/
theorem missing_vocab_seed_word_retained_witness :
    lookupKey [("good".toList, 0)] "z".toList = none
    ∧ seedToVecPol [("z".toList, Polarity.POSITIVE)] [("good".toList, 0)]
        = seedToVecPol
            ([("z".toList, Polarity.POSITIVE)].filter
              (fun e => !(e.1 == "z".toList)))
            [("good".toList, 0)]
    ∧ lookupKey [("z".toList, Polarity.POSITIVE), ("good".toList, Polarity.NEGATIVE)]
        "z".toList = some Polarity.POSITIVE
    ∧ ("z".toList, Polarity.POSITIVE)
        ∈ sortWords [("z".toList, Polarity.POSITIVE),
                     ("good".toList, Polarity.NEGATIVE)] := by
  have h := missing_vocab_seed_word_retained
    [("z".toList, Polarity.POSITIVE)] [("good".toList, 0)]
    [(0, "good".toList)] [(0, Polarity.NEGATIVE)]
    "z".toList Polarity.POSITIVE
    [("z".toList, Polarity.POSITIVE), ("good".toList, Polarity.NEGATIVE)]
    (by decide) (by decide) (by decide)
  exact ⟨by decide, h.1, h.2.1, h.2.2⟩

/-- The output loop concatenates one rendered line per pair, in order. -/
theorem renderOutput_eq_flatten :
    ∀ (l : W2P) (acc : List Char),
      l.foldl (fun a e => a ++ e.1 ++ ['\t'] ++ polName e.2 ++ ['\n']) acc
        = acc ++ (l.map (fun e => e.1 ++ ['\t'] ++ polName e.2 ++ ['\n'])).flatten := by
  intro l
  induction l with
  | nil => intro acc; simp
  | cons e rest ih =>
    intro acc
    simp only [List.foldl_cons, List.map_cons, List.flatten_cons]
    rw [ih]
    simp [List.append_assoc]

/-- Claim C9: for every word-to-polarity index with distinct words (a map
invariant), the emitted output is the concatenation of lines
`word<TAB>polarity-name<newline>` whose polarity name is one of the literal
strings `positive`, `negative`, `neutral`; the lines are sorted in strictly
ascending lexicographic word order (so no word appears twice), and they are
exactly the entries of the index. -/
theorem output_sorted_unique_wellformed (m : W2P)
    (hnodup : (m.map Prod.fst).Nodup) :
    List.Pairwise (fun a b : List Char × Polarity => a.1 < b.1) (sortWords m)
    ∧ (sortWords m).Perm m
    ∧ (∀ e ∈ sortWords m,
        polName e.2 = "positive".toList ∨ polName e.2 = "negative".toList
          ∨ polName e.2 = "neutral".toList)
    ∧ renderOutput (sortWords m)
        = ((sortWords m).map
            (fun e => e.1 ++ ['\t'] ++ polName e.2 ++ ['\n'])).flatten := by
  have hperm : (sortWords m).Perm m :=
    List.mergeSort_perm m (fun a b => decide (a.1 ≤ b.1))
  have htrans : ∀ a b c : List Char × Polarity,
      decide (a.1 ≤ b.1) = true → decide (b.1 ≤ c.1) = true →
      decide (a.1 ≤ c.1) = true := fun a b c hab hbc =>
    decide_eq_true (le_trans (of_decide_eq_true hab) (of_decide_eq_true hbc))
  have htotal : ∀ a b : List Char × Polarity,
      (decide (a.1 ≤ b.1) || decide (b.1 ≤ a.1)) = true := by
    intro a b
    rcases le_total a.1 b.1 with h | h <;> simp [h]
  have hle := List.sorted_mergeSort htrans htotal m
  have hle' : List.Pairwise (fun a b : List Char × Polarity => a.1 ≤ b.1)
      (sortWords m) := hle.imp (fun h => of_decide_eq_true h)
  have hnodup' : ((sortWords m).map Prod.fst).Nodup :=
    ((hperm.map Prod.fst).nodup_iff).mpr hnodup
  have hne : List.Pairwise (fun a b : List Char × Polarity => a.1 ≠ b.1)
      (sortWords m) := List.pairwise_map.mp hnodup'
  refine ⟨(hle'.and hne).imp (fun h => lt_of_le_of_ne h.1 h.2), hperm, ?_, ?_⟩
  · intro e _
    rcases e with ⟨w, p⟩
    cases p
    · exact Or.inl rfl
    · exact Or.inr (Or.inl rfl)
    · exact Or.inr (Or.inr rfl)
  · have h := renderOutput_eq_flatten (sortWords m) []
    simpa [renderOutput] using h

/-- Claim C9, witness: a concrete two-entry index is emitted sorted, without
duplicates, with well-formed lines. -/
theorem output_sorted_unique_wellformed_witness :
    (([("b".toList, Polarity.NEGATIVE), ("a".toList, Polarity.POSITIVE)].map
        Prod.fst).Nodup)
    ∧ (List.Pairwise (fun a b : List Char × Polarity => a.1 < b.1)
        (sortWords [("b".toList, Polarity.NEGATIVE), ("a".toList, Polarity.POSITIVE)])
      ∧ (sortWords [("b".toList, Polarity.NEGATIVE),
            ("a".toList, Polarity.POSITIVE)]).Perm
          [("b".toList, Polarity.NEGATIVE), ("a".toList, Polarity.POSITIVE)]
      ∧ (∀ e ∈ sortWords [("b".toList, Polarity.NEGATIVE),
            ("a".toList, Polarity.POSITIVE)],
          polName e.2 = "positive".toList ∨ polName e.2 = "negative".toList
            ∨ polName e.2 = "neutral".toList)
      ∧ renderOutput (sortWords [("b".toList, Polarity.NEGATIVE),
            ("a".toList, Polarity.POSITIVE)])
          = ((sortWords [("b".toList, Polarity.NEGATIVE),
                ("a".toList, Polarity.POSITIVE)]).map
              (fun e => e.1 ++ ['\t'] ++ polName e.2 ++ ['\n'])).flatten) :=
  ⟨by decide,
   output_sorted_unique_wellformed
     [("b".toList, Polarity.NEGATIVE), ("a".toList, Polarity.POSITIVE)]
     (by decide)⟩

/-- Structure of a successful run of the vector-loader loop: starting from a
state whose `vecid2word` keys are all below the current column index, the loop
appends to `vecid2word` one entry per processed line, keyed by consecutive
column indices, and `word2vecid` is obtained by `emplace`-folding the same
entries with word and id swapped. -/
theorem read_vectors_go_ok_struct (mrows ncols : Nat) :
    ∀ (lines : List String) (icol lastIrow : Nat) (st st' : VecState),
      (∀ k ∈ st.v2w.map Prod.fst, k < icol) →
      read_vectors_go mrows ncols lines icol lastIrow st = (.ok, st') →
      ∃ new : V2W,
        st'.v2w = st.v2w ++ new
        ∧ new.map Prod.fst = List.range' icol new.length
        ∧ st'.w2v = new.foldl (fun a e => emplace a e.2 e.1) st.w2v := by
  intro lines
  induction lines with
  | nil =>
    intro icol lastIrow st st' hlt h
    simp only [read_vectors_go] at h
    by_cases hc : icol < ncols
    · simp only [hc, if_true] at h
      by_cases hr : lastIrow ≠ mrows
      · rw [if_pos hr] at h; simp at h
      · rw [if_neg hr] at h
        cases h
        exact ⟨[], by simp, by simp [List.range'], by simp⟩
    · simp only [hc, if_false] at h
      by_cases hr : lastIrow ≠ mrows
      · rw [if_pos hr] at h; simp at h
      · rw [if_neg hr] at h
        cases h
        exact ⟨[], by simp, by simp [List.range'], by simp⟩
  | cons l ls ih =>
    intro icol lastIrow st st' hlt h
    simp only [read_vectors_go] at h
    by_cases hc : icol < ncols
    · simp only [hc, if_true] at h
      cases hv : parseVecLine mrows l with
      | entry w toks =>
        simp only [hv] at h
        have hnone : lookupKey st.v2w icol = none :=
          lookupKey_eq_none (fun k hk => Nat.ne_of_lt (hlt k hk))
        have hemp : emplace st.v2w icol w = st.v2w ++ [(icol, w)] :=
          emplace_of_lookup_none w hnone
        have hlt' : ∀ k ∈ (emplace st.v2w icol w).map Prod.fst, k < icol + 1 := by
          rw [hemp]
          intro k hk
          rcases List.mem_map.mp hk with ⟨e, he, hke⟩
          rcases List.mem_append.mp he with he1 | he2
          · exact Nat.lt_succ_of_lt (hlt k (hke ▸ List.mem_map_of_mem Prod.fst he1))
          · have he : e = (icol, w) := List.mem_singleton.mp he2
            rw [← hke, he]
            exact Nat.lt_succ_self icol
        obtain ⟨new', h1, h2, h3⟩ := ih (icol + 1) mrows _ st' hlt' h
        refine ⟨(icol, w) :: new', ?_, ?_, ?_⟩
        · rw [h1]
          show emplace st.v2w icol w ++ new' = st.v2w ++ ((icol, w) :: new')
          rw [hemp, List.append_assoc]
          rfl
        · rw [List.map_cons, List.length_cons, List.range'_succ, h2]
        · rw [h3]
          rfl
      | wordErr => simp only [hv] at h; simp at h
      | rowErr => simp only [hv] at h; simp at h
      | oob => simp only [hv] at h; simp at h
    · simp only [hc, if_false] at h
      by_cases hr : lastIrow ≠ mrows
      · rw [if_pos hr] at h; simp at h
      · rw [if_neg hr] at h
        cases h
        exact ⟨[], by simp, by simp [List.range'], by simp⟩

/-- Folding `emplace` over swapped pairs with pairwise-distinct keys, none of
which is already bound, appends every pair. -/
theorem foldl_emplace_eq_map_swap :
    ∀ (l : V2W) (acc : List (List Char × Nat)),
      (l.map Prod.snd).Nodup →
      (∀ e ∈ l, lookupKey acc e.2 = none) →
      l.foldl (fun a e => emplace a e.2 e.1) acc
        = acc ++ l.map (fun e => (e.2, e.1)) := by
  intro l
  induction l with
  | nil => intro acc _ _; simp
  | cons e rest ih =>
    intro acc hnd hnone
    have hnd' : (rest.map Prod.snd).Nodup := by
      rw [List.map_cons] at hnd
      exact hnd.of_cons
    have hhd : e.2 ∉ rest.map Prod.snd := by
      rw [List.map_cons] at hnd
      exact (List.nodup_cons.mp hnd).1
    simp only [List.foldl_cons]
    rw [emplace_of_lookup_none e.1 (hnone e (List.mem_cons_self e rest))]
    rw [ih (acc ++ [(e.2, e.1)]) hnd' ?_]
    · rw [List.append_assoc]
      rfl
    · intro f hf
      rw [lookupKey_append, hnone f (List.mem_cons_of_mem e hf),
        lookupKey_singleton, Option.none_or]
      rw [if_neg]
      intro hfe
      exact hhd (hfe ▸ List.mem_map_of_mem Prod.snd hf)

/-- For an association list with pairwise-distinct keys and pairwise-distinct
values, lookup in the key-value-swapped list is the exact inverse of lookup in
the original list. -/
theorem lookup_swap_iff :
    ∀ (l : V2W), (l.map Prod.fst).Nodup → (l.map Prod.snd).Nodup →
      ∀ (w : List Char) (i : Nat),
        lookupKey (l.map (fun e => (e.2, e.1))) w = some i
          ↔ lookupKey l i = some w := by
  intro l
  induction l with
  | nil =>
    intro _ _ w i
    constructor
    · intro h; cases h
    · intro h; cases h
  | cons e rest ih =>
    obtain ⟨eid, ew⟩ := e
    intro hf hs w i
    rw [List.map_cons] at hf hs
    have hfhd : (eid, ew).1 ∉ rest.map Prod.fst := (List.nodup_cons.mp hf).1
    have hshd : (eid, ew).2 ∉ rest.map Prod.snd := (List.nodup_cons.mp hs).1
    rw [List.map_cons]
    rw [lookupKey_cons, lookupKey_cons]
    by_cases hw : w = ew
    · rw [if_pos hw]
      by_cases hi : i = eid
      · rw [if_pos hi]
        subst hw
        subst hi
        constructor
        · intro _; rfl
        · intro _; rfl
      · rw [if_neg hi]
        subst hw
        constructor
        · intro hli
          exact absurd (Option.some.inj hli) (fun he => hi he.symm)
        · intro hri
          have hmem := mem_of_lookupKey_some hri
          exact absurd (List.mem_map_of_mem Prod.snd hmem) hshd
    · rw [if_neg hw]
      by_cases hi : i = eid
      · rw [if_pos hi]
        constructor
        · intro hli
          have hmem := mem_of_lookupKey_some hli
          rcases List.mem_map.mp hmem with ⟨f, hfr, hfe⟩
          have hf1 : f.1 = eid := by rw [← hi]; exact congrArg Prod.snd hfe
          have hmm : f.1 ∈ rest.map Prod.fst := List.mem_map_of_mem Prod.fst hfr
          rw [hf1] at hmm
          exact absurd hmm hfhd
        · intro hri
          exact absurd (Option.some.inj hri) (fun he => hw he.symm)
      · rw [if_neg hi]
        exact ih hf.of_cons hs.of_cons w i

/-- Claim C4, counterexample to the parenthetical "(this must hold even when
the input file repeats a word)": a vector file repeating the word `w` loads
successfully, `vecid2word` maps both ids 0 and 1 to `w`, while `word2vecid`
maps `w` only to 0 — two ids share one word and the maps are not inverse. -/
theorem vocab_bijection_counterexample :
    (read_vectors ["2 1", "w 1.0", "w 2.0"]).1 = .ok
    ∧ lookupKey (read_vectors ["2 1", "w 1.0", "w 2.0"]).2.v2w 1
        = some "w".toList
    ∧ lookupKey (read_vectors ["2 1", "w 1.0", "w 2.0"]).2.w2v "w".toList
        = some 0
    ∧ ¬(lookupKey (read_vectors ["2 1", "w 1.0", "w 2.0"]).2.w2v "w".toList
        = some 1) := by
  refine ⟨by decide, by decide, by decide, by decide⟩

/-- Claim C4, amended: after a successful load, `vecid2word` always has
contiguous ids `[0, n)` assigned in file order; PROVIDED the file repeats no
word, `word2vecid` is exactly the swap of `vecid2word` and the two maps are
exact inverses of each other.  (With a repeated word, `word2vecid` keeps only
the first id, see the counterexample.) -/
theorem vocab_bijection_of_distinct_words (lines : List String) (st : VecState)
    (h : read_vectors lines = (.ok, st)) :
    st.v2w.map Prod.fst = List.range st.v2w.length
    ∧ ((st.v2w.map Prod.snd).Nodup →
        st.w2v = st.v2w.map (fun e => (e.2, e.1))
        ∧ ∀ (w : List Char) (i : Nat),
            lookupKey st.w2v w = some i ↔ lookupKey st.v2w i = some w) := by
  unfold read_vectors at h
  cases hh : parseHeader
      (((lines.dropWhile (fun l => l.toList == [])).head?.getD "").toList) with
  | none => simp only [hh] at h; simp at h
  | some pr =>
    simp only [hh] at h
    obtain ⟨new, h1, h2, h3⟩ :=
      read_vectors_go_ok_struct pr.2 pr.1 _ 0 0
        ⟨[], [], pr.2, pr.1, []⟩ st (by simp) h
    rw [List.nil_append] at h1
    have hids : st.v2w.map Prod.fst = List.range st.v2w.length := by
      rw [h1, h2, List.range_eq_range']
    refine ⟨hids, ?_⟩
    intro hnodup
    have hw2v : st.w2v = st.v2w.map (fun e => (e.2, e.1)) := by
      rw [h3, h1]
      rw [foldl_emplace_eq_map_swap new [] (h1 ▸ hnodup) (fun e _ => rfl)]
      rw [List.nil_append]
    refine ⟨hw2v, ?_⟩
    intro w i
    rw [hw2v]
    exact lookup_swap_iff st.v2w
      (by rw [hids]; exact List.nodup_range _) hnodup w i

/-- Claim C4, witness for the amended theorem: a two-word file with distinct
words gives contiguous ids and inverse lookups. -/
theorem vocab_bijection_of_distinct_words_witness :
    (read_vectors ["2 1", "aa 1.0", "bb 2.0"]).1 = .ok
    ∧ ((read_vectors ["2 1", "aa 1.0", "bb 2.0"]).2.v2w.map Prod.snd).Nodup
    ∧ (read_vectors ["2 1", "aa 1.0", "bb 2.0"]).2.v2w.map Prod.fst
        = List.range (read_vectors ["2 1", "aa 1.0", "bb 2.0"]).2.v2w.length
    ∧ (lookupKey (read_vectors ["2 1", "aa 1.0", "bb 2.0"]).2.w2v "bb".toList
          = some 1
        ↔ lookupKey (read_vectors ["2 1", "aa 1.0", "bb 2.0"]).2.v2w 1
          = some "bb".toList) := by
  have h := vocab_bijection_of_distinct_words ["2 1", "aa 1.0", "bb 2.0"]
    (read_vectors ["2 1", "aa 1.0", "bb 2.0"]).2 (by decide)
  exact ⟨by decide, by decide, h.1, (h.2 (by decide)).2 "bb".toList 1⟩

/-- Claim C6: length normalization leaves every zero-norm column exactly
unchanged (no division is performed for it), gives every nonzero-norm column
Euclidean norm 1, and is idempotent: a second application returns the same
matrix. -/
theorem length_normalize_spec (m n : Nat) (A : Matrix (Fin m) (Fin n) ℝ) :
    (∀ i, colNorm A i = 0 → ∀ j, length_normalize A j i = A j i)
    ∧ (∀ i, colNorm A i ≠ 0 → colNorm (length_normalize A) i = 1)
    ∧ length_normalize (length_normalize A) = length_normalize A := by
  have hnormsq : ∀ (B : Matrix (Fin m) (Fin n) ℝ) (i : Fin n),
      0 ≤ ∑ j, B j i * B j i :=
    fun B i => Finset.sum_nonneg (fun j _ => mul_self_nonneg (B j i))
  have hcol : ∀ i, colNorm A i ≠ 0 →
      ∀ j, length_normalize A j i = A j i / colNorm A i := by
    intro i hi j
    unfold length_normalize
    rw [if_neg hi]
  have hnorm1 : ∀ i, colNorm A i ≠ 0 → colNorm (length_normalize A) i = 1 := by
    intro i hi
    have hsq : colNorm A i * colNorm A i = ∑ j, A j i * A j i :=
      Real.mul_self_sqrt (hnormsq A i)
    have hS : (∑ j, A j i * A j i) ≠ 0 := by
      intro h0
      exact hi (by unfold colNorm; rw [h0, Real.sqrt_zero])
    unfold colNorm
    have hrw : ∀ j, length_normalize A j i * length_normalize A j i
        = (A j i * A j i) / (colNorm A i * colNorm A i) := by
      intro j
      rw [hcol i hi j]
      rw [div_mul_div_comm]
    rw [Finset.sum_congr rfl (fun j _ => hrw j)]
    rw [← Finset.sum_div, hsq, div_self hS, Real.sqrt_one]
  refine ⟨?_, hnorm1, ?_⟩
  · intro i hi j
    unfold length_normalize
    rw [if_pos hi]
  · funext j i
    by_cases hi : colNorm A i = 0
    · have hfix : ∀ j', length_normalize A j' i = A j' i := by
        intro j'
        unfold length_normalize
        rw [if_pos hi]
      have hcol0 : colNorm (length_normalize A) i = 0 := by
        unfold colNorm
        rw [Finset.sum_congr rfl (fun j' _ => by rw [hfix j'])]
        unfold colNorm at hi
        exact hi
      show (if colNorm (length_normalize A) i = 0 then length_normalize A j i
          else length_normalize A j i / colNorm (length_normalize A) i)
        = length_normalize A j i
      rw [if_pos hcol0]
    · have hone : colNorm (length_normalize A) i = 1 := hnorm1 i hi
      show (if colNorm (length_normalize A) i = 0 then length_normalize A j i
          else length_normalize A j i / colNorm (length_normalize A) i)
        = length_normalize A j i
      rw [if_neg (by rw [hone]; exact one_ne_zero), hone, div_one]

/-- Claim C6, witness: the 1x1 matrix with entry 2 has column norm 2, and one
application of length normalization gives its column norm 1. -/
theorem length_normalize_spec_witness :
    colNorm (fun _ _ => (2 : ℝ) : Matrix (Fin 1) (Fin 1) ℝ) 0 ≠ 0
    ∧ colNorm (length_normalize (fun _ _ => (2 : ℝ) : Matrix (Fin 1) (Fin 1) ℝ)) 0
        = 1 := by
  have h2 : colNorm (fun _ _ => (2 : ℝ) : Matrix (Fin 1) (Fin 1) ℝ) 0 = 2 := by
    unfold colNorm
    rw [show (∑ j : Fin 1, ((fun _ _ => (2 : ℝ) : Matrix (Fin 1) (Fin 1) ℝ) j 0
        * (fun _ _ => (2 : ℝ) : Matrix (Fin 1) (Fin 1) ℝ) j 0)) = 4 by
      simp; norm_num]
    rw [show (4 : ℝ) = 2 ^ 2 by norm_num]
    exact Real.sqrt_sq (by norm_num)
  have hne : colNorm (fun _ _ => (2 : ℝ) : Matrix (Fin 1) (Fin 1) ℝ) 0 ≠ 0 := by
    rw [h2]; norm_num
  exact ⟨hne,
    (length_normalize_spec 1 1 (fun _ _ => (2 : ℝ))).2.1 0 hne⟩

/-- Claim C7: mean normalization subtracts each row's mean from every entry of
that row (that is its definition, restated entrywise), and afterwards, for a
matrix with at least one column, the sum — hence the mean — of every row is 0
in exact arithmetic.  The shape is unchanged by construction (the result is a
matrix over the same index types). -/
theorem mean_normalize_spec (m n : Nat) (A : Matrix (Fin m) (Fin n) ℝ)
    (hn : 0 < n) :
    (∀ j i, mean_normalize A j i = A j i - (∑ k, A j k) / n)
    ∧ ∀ j, ∑ i, mean_normalize A j i = 0 := by
  refine ⟨fun j i => rfl, ?_⟩
  intro j
  unfold mean_normalize
  rw [Finset.sum_sub_distrib, Finset.sum_const, Finset.card_univ, Fintype.card_fin,
    nsmul_eq_mul]
  have hne : (n : ℝ) ≠ 0 := Nat.cast_ne_zero.mpr hn.ne'
  rw [mul_comm, div_mul_cancel₀ _ hne, sub_self]

/-- Claim C7, witness: on the all-ones 1x2 matrix every row sums to 0 after
mean normalization. -/
theorem mean_normalize_spec_witness :
    (0 : Nat) < 2
    ∧ ∀ j : Fin 1, ∑ i, mean_normalize (fun _ _ => (1 : ℝ)
        : Matrix (Fin 1) (Fin 2) ℝ) j i = 0 :=
  ⟨by decide,
   (mean_normalize_spec 1 2 (fun _ _ => (1 : ℝ)) (by decide)).2⟩

end Vec2Dic
